import Mathlib

/-
Verification of the route classification engine of next-route-guard
(src route-auth core): trie construction from a route table
(`buildRouteTrie` / `addRouteToTrie`) and path matching
(`matchPath` / `findMatch`).

Strings are embedded as lists of characters; the JS `Map<string, RouteNode>`
is embedded as an association list with insert-or-replace update, which
preserves the only operations the source uses (`has`, `get`, `set`).
The recursive matcher is embedded with an explicit fuel parameter
(`findMatchF`); a proved fuel bound (linear in the path depth) recovers the
total function `findMatch`.
-/

namespace NextRouteGuard

/-- A path or pattern segment: a JS string, embedded as a list of characters. -/
abbrev Seg := List Char

/-- Mirror of the source `RouteNode`: literal children (a string-keyed map),
an optional dynamic child, an optional catch-all child paired with its
`isOptional` flag, and an optional protection classification. -/
inductive RouteNode : Type where
  | mk (children : List (Seg × RouteNode))
       (dynamicChild : Option RouteNode)
       (catchAllChild : Option (RouteNode × Bool))
       (isProtected : Option Bool)

/-- Literal children of a node (the `children` map). -/
def RouteNode.children : RouteNode → List (Seg × RouteNode)
  | .mk c _ _ _ => c

/-- Dynamic (`[param]`) child of a node. -/
def RouteNode.dynamicChild : RouteNode → Option RouteNode
  | .mk _ d _ _ => d

/-- Catch-all child of a node together with its `isOptional` flag. -/
def RouteNode.catchAllChild : RouteNode → Option (RouteNode × Bool)
  | .mk _ _ ca _ => ca

/-- Explicit classification of a node, if a registered pattern ends here. -/
def RouteNode.isProtected : RouteNode → Option Bool
  | .mk _ _ _ p => p

/-- Lookup in the children map (the source's `Map.get`, with `Map.has`
being definedness of the result). -/
def mapGet? : List (Seg × RouteNode) → Seg → Option RouteNode
  | [], _ => none
  | (k, v) :: t, key => if k = key then some v else mapGet? t key

/-- Update in the children map (the source's `Map.set`): replace the value at
an existing key, else append a new entry. -/
def mapSet : List (Seg × RouteNode) → Seg → RouteNode → List (Seg × RouteNode)
  | [], key, v => [(key, v)]
  | (k, w) :: t, key, v => if k = key then (key, v) :: t else (k, w) :: mapSet t key v

/-- The source's catch-all test: `segment.startsWith('[...') || segment.startsWith('[[...')`. -/
def isCatchAllSeg (s : Seg) : Bool :=
  ['[', '.', '.', '.'].isPrefixOf s || ['[', '[', '.', '.', '.'].isPrefixOf s

/-- The source's optionality test for a catch-all segment: `segment.startsWith('[[...')`. -/
def isOptionalCatchAll (s : Seg) : Bool :=
  ['[', '[', '.', '.', '.'].isPrefixOf s

/-- The source's dynamic-segment test: `segment.startsWith('[') && segment.endsWith(']')`. -/
def isDynamicSeg (s : Seg) : Bool :=
  ['['].isPrefixOf s && [']'].isSuffixOf s

/-- A segment the builder treats as a literal: neither catch-all nor dynamic. -/
def isLiteralSeg (s : Seg) : Bool :=
  !isCatchAllSeg s && !isDynamicSeg s

/-- A fresh node, as created on demand by the builder: `{ children: new Map() }`. -/
def emptyNode : RouteNode := .mk [] none none none

/-- The segment loop of `addRouteToTrie`, recursing over the remaining
pattern segments.  The `[]` case writes the classification at the current
node: for a non-empty pattern this is the source's terminal write at
`i === segments.length - 1`, and for a segment-less route it is the source's
root write.  A catch-all segment creates the catch-all child with the
segment's own optionality, or reuses the existing child (keeping its stored
optionality); a dynamic segment creates or reuses the dynamic child; any
other segment is stored in the literal children map under its exact string. -/
def addSegments : RouteNode → List Seg → Bool → RouteNode
  | .mk ch dy ca _, [], b => .mk ch dy ca (some b)
  | .mk ch dy ca pr, seg :: rest, b =>
    if isCatchAllSeg seg then
      match ca with
      | some (n, o) => .mk ch dy (some (addSegments n rest b, o)) pr
      | none => .mk ch dy (some (addSegments emptyNode rest b, isOptionalCatchAll seg)) pr
    else if isDynamicSeg seg then
      match dy with
      | some n => .mk ch (some (addSegments n rest b)) ca pr
      | none => .mk ch (some (addSegments emptyNode rest b)) ca pr
    else
      match mapGet? ch seg with
      | some n => .mk (mapSet ch seg (addSegments n rest b)) dy ca pr
      | none => .mk (mapSet ch seg (addSegments emptyNode rest b)) dy ca pr

/-- Split a list of characters at every occurrence of `c`
(the JS `String.split` with a one-character separator). -/
def splitOnChar (c : Char) : List Char → List (List Char)
  | [] => [[]]
  | a :: t =>
    if a = c then [] :: splitOnChar c t
    else
      match splitOnChar c t with
      | [] => [[a]]
      | h :: r => (a :: h) :: r

/-- The source's `route.split('/').filter((segment) => segment !== '')`. -/
def splitSlash (l : List Char) : List Seg :=
  (splitOnChar '/' l).filter (fun s => s ≠ [])

/-- One route insertion (`addRouteToTrie`). -/
def addRouteToTrie (root : RouteNode) (route : String) (isProt : Bool) : RouteNode :=
  addSegments root (splitSlash route.data) isProt

/-- The route table: a protected list and a public list of route patterns. -/
structure RouteMap where
  protectedRoutes : List String
  publicRoutes : List String

/-- The builder (`buildRouteTrie`): insert all protected routes, then all
public routes, into an empty root. -/
def buildRouteTrie (rm : RouteMap) : RouteNode :=
  rm.publicRoutes.foldl (fun t r => addRouteToTrie t r false)
    (rm.protectedRoutes.foldl (fun t r => addRouteToTrie t r true) emptyNode)

/-- End-of-path resolution of `findMatch`: the node's own classification if
set, else an optional catch-all child's classification, else the default. -/
def endOfPath (node : RouteNode) (d : Bool) : Bool :=
  match node.isProtected with
  | some b => b
  | none =>
    match node.catchAllChild with
    | some (n, o) => if o then n.isProtected.getD d else d
    | none => d

mutual

/-- Fueled embedding of the source's recursive `findMatch`; `none` means the
fuel ran out before the recursion completed.  At the current segment the
branches are tried in source order: exact literal child, dynamic child,
catch-all child (with the rest-segment loop when the catch-all node has
literal children), else the default. -/
def findMatchF : Nat → RouteNode → List Seg → Nat → Bool → Option Bool
  | 0, _, _, _, _ => none
  | fuel + 1, node, segments, index, d =>
    if segments.length ≤ index then some (endOfPath node d)
    else
      match mapGet? node.children (segments.getD index []) with
      | some child => findMatchF fuel child segments (index + 1) d
      | none =>
        match node.dynamicChild with
        | some dyn => findMatchF fuel dyn segments (index + 1) d
        | none =>
          match node.catchAllChild with
          | some (can, _) =>
            if can.children.length ≠ 0 then
              match restLoopF fuel can segments index d with
              | none => none
              | some (some b) => some b
              | some none => some (can.isProtected.getD d)
            else some (can.isProtected.getD d)
          | none => some d

/-- Fueled embedding of the split-point loop of `findMatch` (the
`tryRestSegmentMatch` loop): `some (some b)` is an accepted split with
result `b`, `some none` a completed loop in which no remaining segment was a
rest-segment key, and `none` fuel exhaustion. -/
def restLoopF : Nat → RouteNode → List Seg → Nat → Bool → Option (Option Bool)
  | 0, _, _, _, _ => none
  | fuel + 1, can, segments, i, d =>
    if segments.length ≤ i then some none
    else
      match mapGet? can.children (segments.getD i []) with
      | some restNode =>
        match findMatchF fuel restNode segments (i + 1) d with
        | some b => some (some b)
        | none => none
      | none => restLoopF fuel can segments (i + 1) d

end

/-- Fuel that always suffices for a search starting at `index` (proved below). -/
def enoughFuel (segments : List Seg) (index : Nat) : Nat :=
  2 * (segments.length - index) + 2

/-- The total matcher obtained from the fueled one at a sufficient fuel. -/
def findMatch (node : RouteNode) (segments : List Seg) (index : Nat) (d : Bool) : Bool :=
  (findMatchF (enoughFuel segments index) node segments index d).getD d

/-- Characters before the first occurrence of `c` (JS `s.split(c)[0]`). -/
def takeUntilChar (c : Char) (l : List Char) : List Char :=
  l.takeWhile (fun a => a ≠ c)

/-- Query and fragment stripping: `path.split('?')[0].split('#')[0]`. -/
def rawPath (l : List Char) : List Char :=
  takeUntilChar '#' (takeUntilChar '?' l)

/-- Trailing-slash stripping: drop one final `'/'` unless the string has
length at most one. -/
def stripSlash (l : List Char) : List Char :=
  if l.getLast? = some '/' ∧ 1 < l.length then l.dropLast else l

/-- The body of `matchPath` after normalization: the root special case, else
segment split and recursive matching from the root. -/
def matchClean (cleanPath : List Char) (routeTrie : RouteNode) (d : Bool) : Bool :=
  if cleanPath = ['/'] then routeTrie.isProtected.getD d
  else findMatch routeTrie (splitSlash cleanPath) 0 d

/-- The matcher entry point (`matchPath`). -/
def matchPath (path : String) (routeTrie : RouteNode) (d : Bool) : Bool :=
  matchClean (stripSlash (rawPath path.data)) routeTrie d

/-- Follow a pattern's segments through the trie along the same branches the
builder uses for them, returning the node at which the pattern terminates. -/
def lookupNodePat : RouteNode → List Seg → Option RouteNode
  | node, [] => some node
  | node, seg :: rest =>
    if isCatchAllSeg seg then
      match node.catchAllChild with
      | some (n, _) => lookupNodePat n rest
      | none => none
    else if isDynamicSeg seg then
      match node.dynamicChild with
      | some n => lookupNodePat n rest
      | none => none
    else
      match mapGet? node.children seg with
      | some n => lookupNodePat n rest
      | none => none

/-- The classification stored at the trie position where a pattern terminates. -/
def patClass (t : RouteNode) (segs : List Seg) : Option Bool :=
  (lookupNodePat t segs).bind RouteNode.isProtected

/-- The optionality flag of the catch-all child at a trie position. -/
def caOptAt (t : RouteNode) (ps : List Seg) : Option Bool :=
  (lookupNodePat t ps).bind (fun n => n.catchAllChild.map (fun c => c.2))

/-- First split position at or after `i` whose segment is a key of the
catch-all node's children, together with that child and the index just past
the key; the argument list is the path suffix from `i`. -/
def firstSplitAux (can : RouteNode) : List Seg → Nat → Option (RouteNode × Nat)
  | [], _ => none
  | s :: t, i =>
    match mapGet? can.children s with
    | some n => some (n, i + 1)
    | none => firstSplitAux can t (i + 1)

/-- First accepted split point of the rest-segment loop, from index `i`. -/
def firstSplit (can : RouteNode) (segs : List Seg) (i : Nat) : Option (RouteNode × Nat) :=
  firstSplitAux can (segs.drop i) i

/-- Observation: does the node at a pattern position have a literal child
keyed by `k`? -/
def hasLiteralChildAt (t : RouteNode) (ps : List Seg) (k : Seg) : Bool :=
  match lookupNodePat t ps with
  | some n => (mapGet? n.children k).isSome
  | none => false

/-- Observation: does the node at a pattern position have a catch-all child? -/
def hasCatchAllAt (t : RouteNode) (ps : List Seg) : Bool :=
  match lookupNodePat t ps with
  | some n => n.catchAllChild.isSome
  | none => false

/-- Observation: number of literal children at a pattern position. -/
def childCountAt (t : RouteNode) (ps : List Seg) : Nat :=
  match lookupNodePat t ps with
  | some n => n.children.length
  | none => 0

/-- The matcher's rule at a path's exact depth is the given pattern: the
descent of `findMatch` from `node` on the URL segments `us` follows exactly
the branches of the pattern segments `ps` and resolves its classification
at the pattern's terminal trie position.  Each constructor carries the
premises under which `findMatch` takes the pattern's branch, read off the
source's precedence chain: a literal child is taken when it matches the URL
segment exactly; the dynamic child is taken only when no literal child
matches the URL segment; the catch-all child is taken only when neither a
literal child matches nor a dynamic child exists, and then it either
consumes all remaining segments (when no remaining segment is a
rest-segment key), matches zero segments at end of path (when optional and
the node has no classification of its own), or commits to the first
rest-segment key hit when the pattern continues with a literal rest
segment. -/
inductive RuleAt : RouteNode → List Seg → List Seg → Prop where
  | endExact {node : RouteNode} : RuleAt node [] []
  | litStep {node child : RouteNode} {seg : Seg} {ps us : List Seg}
      (hcs : isCatchAllSeg seg = false) (hds : isDynamicSeg seg = false)
      (hchild : mapGet? node.children seg = some child)
      (hrest : RuleAt child ps us) : RuleAt node (seg :: ps) (seg :: us)
  | dynStep {node child : RouteNode} {seg u : Seg} {ps us : List Seg}
      (hcs : isCatchAllSeg seg = false) (hds : isDynamicSeg seg = true)
      (hnolit : mapGet? node.children u = none)
      (hchild : node.dynamicChild = some child)
      (hrest : RuleAt child ps us) : RuleAt node (seg :: ps) (u :: us)
  | caAll {node can : RouteNode} {o : Bool} {seg : Seg} {us : List Seg}
      (hcs : isCatchAllSeg seg = true)
      (hca : node.catchAllChild = some (can, o))
      (hne : us ≠ [])
      (hnolit : mapGet? node.children (us.headD []) = none)
      (hnodyn : node.dynamicChild = none)
      (hnokey : ∀ u ∈ us, mapGet? can.children u = none) :
      RuleAt node [seg] us
  | caOptEnd {node can : RouteNode} {seg : Seg}
      (hcs : isCatchAllSeg seg = true)
      (hp : node.isProtected = none)
      (hca : node.catchAllChild = some (can, true)) :
      RuleAt node [seg] []
  | caRest {node can restN : RouteNode} {o : Bool} {seg r : Seg} {ps pre post : List Seg}
      (hcs : isCatchAllSeg seg = true)
      (hca : node.catchAllChild = some (can, o))
      (hnolit : mapGet? node.children ((pre ++ r :: post).headD []) = none)
      (hnodyn : node.dynamicChild = none)
      (hr1 : isCatchAllSeg r = false) (hr2 : isDynamicSeg r = false)
      (hpre : ∀ u ∈ pre, mapGet? can.children u = none)
      (hkey : mapGet? can.children r = some restN)
      (hrest : RuleAt restN ps post) :
      RuleAt node (seg :: r :: ps) (pre ++ r :: post)

/-! ### Association-list map lemmas -/

theorem mapGet?_set_self (m : List (Seg × RouteNode)) (k : Seg) (v : RouteNode) :
    mapGet? (mapSet m k v) k = some v := by
  induction m with
  | nil => simp [mapSet, mapGet?]
  | cons p t ih =>
    obtain ⟨a, w⟩ := p
    by_cases ha : a = k
    · simp [mapSet, ha, mapGet?]
    · simp [mapSet, ha, mapGet?, ih]

theorem mapGet?_set_ne (m : List (Seg × RouteNode)) (k k' : Seg) (v : RouteNode)
    (h : k ≠ k') : mapGet? (mapSet m k v) k' = mapGet? m k' := by
  induction m with
  | nil => simp [mapSet, mapGet?, h]
  | cons p t ih =>
    obtain ⟨a, w⟩ := p
    by_cases ha : a = k
    · subst ha; simp [mapSet, mapGet?, h]
    · simp [mapSet, ha, mapGet?, ih]

/-! ### Fuel monotonicity and sufficiency for the matcher -/

theorem fuel_mono (fuel : Nat) :
    (∀ fuel' node segments index d b, fuel ≤ fuel' →
      findMatchF fuel node segments index d = some b →
      findMatchF fuel' node segments index d = some b) ∧
    (∀ fuel' can segments i d r, fuel ≤ fuel' →
      restLoopF fuel can segments i d = some r →
      restLoopF fuel' can segments i d = some r) := by
  induction fuel with
  | zero =>
    constructor
    · intro fuel' node segments index d b _ h
      simp [findMatchF] at h
    · intro fuel' can segments i d r _ h
      simp [restLoopF] at h
  | succ fuel ih =>
    obtain ⟨ihF, ihR⟩ := ih
    constructor
    · intro fuel' node segments index d b hle h
      obtain ⟨f', rfl⟩ : ∃ f', fuel' = f' + 1 := ⟨fuel' - 1, by omega⟩
      have hle' : fuel ≤ f' := by omega
      by_cases hlen : segments.length ≤ index
      · simp only [findMatchF] at h ⊢
        rw [if_pos hlen] at h ⊢
        exact h
      · simp only [findMatchF] at h ⊢
        rw [if_neg hlen] at h ⊢
        cases hc : mapGet? node.children (segments.getD index []) with
        | some child =>
          rw [hc] at h
          exact ihF f' child segments (index + 1) d b hle' h
        | none =>
          rw [hc] at h
          cases hd : node.dynamicChild with
          | some dyn =>
            rw [hd] at h
            exact ihF f' dyn segments (index + 1) d b hle' h
          | none =>
            rw [hd] at h
            cases hca : node.catchAllChild with
            | none => rw [hca] at h; exact h
            | some ca =>
              obtain ⟨can, o⟩ := ca
              rw [hca] at h
              have h3 : (if can.children.length ≠ 0 then
                  (match restLoopF fuel can segments index d with
                    | none => (none : Option Bool)
                    | some (some bb2) => some bb2
                    | some none => some (can.isProtected.getD d))
                  else some (can.isProtected.getD d)) = some b := h
              show (if can.children.length ≠ 0 then
                  (match restLoopF f' can segments index d with
                    | none => (none : Option Bool)
                    | some (some bb2) => some bb2
                    | some none => some (can.isProtected.getD d))
                  else some (can.isProtected.getD d)) = some b
              by_cases hch : can.children.length ≠ 0
              · rw [if_pos hch] at h3 ⊢
                cases hr : restLoopF fuel can segments index d with
                | none =>
                  rw [hr] at h3
                  simp at h3
                | some rr =>
                  rw [hr] at h3
                  rw [ihR f' can segments index d rr hle' hr]
                  exact h3
              · rw [if_neg hch] at h3 ⊢
                exact h3
    · intro fuel' can segments i d r hle h
      obtain ⟨f', rfl⟩ : ∃ f', fuel' = f' + 1 := ⟨fuel' - 1, by omega⟩
      have hle' : fuel ≤ f' := by omega
      by_cases hlen : segments.length ≤ i
      · simp only [restLoopF] at h ⊢
        rw [if_pos hlen] at h ⊢
        exact h
      · simp only [restLoopF] at h ⊢
        rw [if_neg hlen] at h ⊢
        cases hc : mapGet? can.children (segments.getD i []) with
        | some restNode =>
          rw [hc] at h
          have h3 : (match findMatchF fuel restNode segments (i + 1) d with
              | some bb => some (some bb)
              | none => (none : Option (Option Bool))) = some r := h
          show (match findMatchF f' restNode segments (i + 1) d with
              | some bb => some (some bb)
              | none => (none : Option (Option Bool))) = some r
          cases hm : findMatchF fuel restNode segments (i + 1) d with
          | none =>
            rw [hm] at h3
            simp at h3
          | some b =>
            rw [hm] at h3
            rw [ihF f' restNode segments (i + 1) d b hle' hm]
            exact h3
        | none =>
          rw [hc] at h
          exact ihR f' can segments (i + 1) d r hle' h

theorem fuel_enough (fuel : Nat) :
    (∀ node segments index d, 2 * (segments.length - index) + 2 ≤ fuel →
      (findMatchF fuel node segments index d).isSome = true) ∧
    (∀ can segments i d, 2 * (segments.length - i) + 1 ≤ fuel →
      (restLoopF fuel can segments i d).isSome = true) := by
  induction fuel with
  | zero =>
    constructor
    · intro _ _ _ _ h; omega
    · intro _ _ _ _ h; omega
  | succ fuel ih =>
    obtain ⟨ihF, ihR⟩ := ih
    constructor
    · intro node segments index d hle
      by_cases hlen : segments.length ≤ index
      · simp only [findMatchF]
        rw [if_pos hlen]
        rfl
      · simp only [findMatchF]
        rw [if_neg hlen]
        cases hc : mapGet? node.children (segments.getD index []) with
        | some child => exact ihF child segments (index + 1) d (by omega)
        | none =>
          cases hd : node.dynamicChild with
          | some dyn => exact ihF dyn segments (index + 1) d (by omega)
          | none =>
            cases hca : node.catchAllChild with
            | none => rfl
            | some ca =>
              obtain ⟨can, o⟩ := ca
              show (if can.children.length ≠ 0 then
                  (match restLoopF fuel can segments index d with
                    | none => (none : Option Bool)
                    | some (some bb2) => some bb2
                    | some none => some (can.isProtected.getD d))
                  else some (can.isProtected.getD d)).isSome = true
              cases hr : restLoopF fuel can segments index d with
              | none =>
                exfalso
                have hh := ihR can segments index d (by omega)
                rw [hr] at hh
                simp at hh
              | some rr =>
                cases rr <;> split <;> rfl
    · intro can segments i d hle
      by_cases hlen : segments.length ≤ i
      · simp only [restLoopF]
        rw [if_pos hlen]
        rfl
      · simp only [restLoopF]
        rw [if_neg hlen]
        cases hc : mapGet? can.children (segments.getD i []) with
        | some restNode =>
          show (match findMatchF fuel restNode segments (i + 1) d with
              | some bb => some (some bb)
              | none => (none : Option (Option Bool))).isSome = true
          cases hm : findMatchF fuel restNode segments (i + 1) d with
          | none =>
            exfalso
            have hh := ihF restNode segments (i + 1) d (by omega)
            rw [hm] at hh
            simp at hh
          | some b => rfl
        | none => exact ihR can segments (i + 1) d (by omega)

/-- The canonical fuel is always enough: the fueled matcher is defined there. -/
theorem findMatchF_isSome (node : RouteNode) (segments : List Seg) (index : Nat) (d : Bool) :
    (findMatchF (enoughFuel segments index) node segments index d).isSome = true :=
  (fuel_enough (enoughFuel segments index)).1 node segments index d (Nat.le_refl _)

/-- The fueled matcher at canonical fuel computes `findMatch`. -/
theorem findMatch_eq_some (node : RouteNode) (segments : List Seg) (index : Nat) (d : Bool) :
    findMatchF (enoughFuel segments index) node segments index d =
      some (findMatch node segments index d) := by
  cases hh : findMatchF (enoughFuel segments index) node segments index d with
  | none =>
    have := findMatchF_isSome node segments index d
    rw [hh] at this
    simp at this
  | some b => simp [findMatch, hh]

/-- Any defined fueled run computes `findMatch`. -/
theorem findMatch_of_findMatchF (fuel : Nat) {node : RouteNode} {segments : List Seg}
    {index : Nat} {d b : Bool}
    (h : findMatchF fuel node segments index d = some b) :
    findMatch node segments index d = b := by
  rcases Nat.le_total fuel (enoughFuel segments index) with hle | hle
  · have hh := (fuel_mono fuel).1 (enoughFuel segments index) node segments index d b hle h
    simp [findMatch, hh]
  · have hh := (fuel_mono (enoughFuel segments index)).1 fuel node segments index d
      (findMatch node segments index d) hle (findMatch_eq_some node segments index d)
    rw [hh] at h
    exact Option.some.inj h

/-! ### One-step unfolding laws for `findMatch` -/

theorem findMatch_end (node : RouteNode) (segments : List Seg) (index : Nat) (d : Bool)
    (h : segments.length ≤ index) :
    findMatch node segments index d = endOfPath node d := by
  apply findMatch_of_findMatchF (0 + 1)
  simp only [findMatchF]
  rw [if_pos h]

theorem findMatch_lit (node child : RouteNode) (segments : List Seg) (index : Nat) (d : Bool)
    (hidx : index < segments.length)
    (hc : mapGet? node.children (segments.getD index []) = some child) :
    findMatch node segments index d = findMatch child segments (index + 1) d := by
  apply findMatch_of_findMatchF (enoughFuel segments (index + 1) + 1)
  simp only [findMatchF]
  rw [if_neg (by omega : ¬segments.length ≤ index), hc]
  exact findMatch_eq_some child segments (index + 1) d

theorem findMatch_dyn (node dyn : RouteNode) (segments : List Seg) (index : Nat) (d : Bool)
    (hidx : index < segments.length)
    (hc : mapGet? node.children (segments.getD index []) = none)
    (hd : node.dynamicChild = some dyn) :
    findMatch node segments index d = findMatch dyn segments (index + 1) d := by
  apply findMatch_of_findMatchF (enoughFuel segments (index + 1) + 1)
  simp only [findMatchF]
  rw [if_neg (by omega : ¬segments.length ≤ index), hc, hd]
  exact findMatch_eq_some dyn segments (index + 1) d

theorem findMatch_noBranch (node : RouteNode) (segments : List Seg) (index : Nat) (d : Bool)
    (hidx : index < segments.length)
    (hc : mapGet? node.children (segments.getD index []) = none)
    (hd : node.dynamicChild = none)
    (hca : node.catchAllChild = none) :
    findMatch node segments index d = d := by
  apply findMatch_of_findMatchF (0 + 1)
  simp only [findMatchF]
  rw [if_neg (by omega : ¬segments.length ≤ index), hc, hd, hca]

/-- The rest-segment loop computes the first split position whose segment is
a key of the catch-all node's children, and commits to the recursive match
just past that key. -/
theorem restLoopF_spec (can : RouteNode) (segments : List Seg) (d : Bool) :
    ∀ (l : List Seg) (i : Nat), segments.drop i = l →
      restLoopF (2 * (segments.length - i) + 1) can segments i d =
        some (match firstSplitAux can l i with
              | some (n, j) => some (findMatch n segments j d)
              | none => none) := by
  intro l
  induction l with
  | nil =>
    intro i hdrop
    have hlen : segments.length ≤ i := List.drop_eq_nil_iff.mp hdrop
    have h0 : segments.length - i = 0 := by omega
    rw [h0]
    simp only [restLoopF, firstSplitAux]
    rw [if_pos hlen]
  | cons s t ih =>
    intro i hdrop
    have hidx : i < segments.length := by
      by_contra hh
      push_neg at hh
      rw [List.drop_eq_nil_iff.mpr hh] at hdrop
      cases hdrop
    have hcons := List.drop_eq_getElem_cons hidx
    rw [hcons] at hdrop
    have hgetE : segments[i] = s := by injection hdrop
    have hdrop' : segments.drop (i + 1) = t := by injection hdrop
    have hget : segments.getD i [] = s := by
      rw [List.getD_eq_getElem?_getD, List.getElem?_eq_getElem hidx, hgetE]
      rfl
    simp only [restLoopF, firstSplitAux]
    rw [if_neg (by omega : ¬segments.length ≤ i), hget]
    cases hcm : mapGet? can.children s with
    | some n =>
      show (match findMatchF (2 * (segments.length - i)) n segments (i + 1) d with
          | some bb => some (some bb)
          | none => (none : Option (Option Bool))) =
        some (some (findMatch n segments (i + 1) d))
      rw [show (2 : Nat) * (segments.length - i) = enoughFuel segments (i + 1) from by
        simp only [enoughFuel]; omega]
      rw [findMatch_eq_some n segments (i + 1) d]
    | none =>
      show restLoopF (2 * (segments.length - i)) can segments (i + 1) d =
        some (match firstSplitAux can t (i + 1) with
              | some (n, j) => some (findMatch n segments j d)
              | none => none)
      exact (fuel_mono (2 * (segments.length - (i + 1)) + 1)).2
        (2 * (segments.length - i)) can segments (i + 1) d _ (by omega) (ih (i + 1) hdrop')

/-- Unfolding law for the catch-all branch with rest segments present: the
matcher commits to the first split point whose segment is a rest-segment
key, else the catch-all consumes everything. -/
theorem findMatch_catchAll (node can : RouteNode) (o : Bool) (segments : List Seg)
    (index : Nat) (d : Bool)
    (hidx : index < segments.length)
    (hc : mapGet? node.children (segments.getD index []) = none)
    (hd : node.dynamicChild = none)
    (hca : node.catchAllChild = some (can, o))
    (hch : can.children.length ≠ 0) :
    findMatch node segments index d =
      (match firstSplit can segments index with
        | some (n, j) => findMatch n segments j d
        | none => can.isProtected.getD d) := by
  apply findMatch_of_findMatchF (2 * (segments.length - index) + 1 + 1)
  simp only [findMatchF]
  rw [if_neg (by omega : ¬segments.length ≤ index), hc, hd, hca]
  show (if can.children.length ≠ 0 then
      (match restLoopF (2 * (segments.length - index) + 1) can segments index d with
        | none => (none : Option Bool)
        | some (some bb2) => some bb2
        | some none => some (can.isProtected.getD d))
      else some (can.isProtected.getD d)) =
    some (match firstSplit can segments index with
        | some (n, j) => findMatch n segments j d
        | none => can.isProtected.getD d)
  rw [if_pos hch]
  rw [restLoopF_spec can segments d (segments.drop index) index rfl]
  simp only [firstSplit]
  cases hfs : firstSplitAux can (segments.drop index) index with
  | some p => obtain ⟨n, j⟩ := p; rfl
  | none => rfl

/-- Unfolding law for the catch-all branch with no rest segments: the
catch-all consumes all remaining segments. -/
theorem findMatch_catchAllEmpty (node can : RouteNode) (o : Bool) (segments : List Seg)
    (index : Nat) (d : Bool)
    (hidx : index < segments.length)
    (hc : mapGet? node.children (segments.getD index []) = none)
    (hd : node.dynamicChild = none)
    (hca : node.catchAllChild = some (can, o))
    (hch : can.children.length = 0) :
    findMatch node segments index d = can.isProtected.getD d := by
  apply findMatch_of_findMatchF (0 + 1)
  simp only [findMatchF]
  rw [if_neg (by omega : ¬segments.length ≤ index), hc, hd, hca]
  show (if can.children.length ≠ 0 then
      (match restLoopF 0 can segments index d with
        | none => (none : Option Bool)
        | some (some bb2) => some bb2
        | some none => some (can.isProtected.getD d))
      else some (can.isProtected.getD d)) = some (can.isProtected.getD d)
  rw [if_neg (by omega : ¬can.children.length ≠ 0)]

/-! ### Decomposition of `List.drop` at a cons cell -/

theorem drop_cons_facts (segments : List Seg) (i : Nat) (s : Seg) (t : List Seg)
    (h : segments.drop i = s :: t) :
    i < segments.length ∧ segments.getD i [] = s ∧ segments.drop (i + 1) = t := by
  have hidx : i < segments.length := by
    by_contra hh
    push_neg at hh
    rw [List.drop_eq_nil_iff.mpr hh] at h
    cases h
  have hcons := List.drop_eq_getElem_cons hidx
  rw [hcons] at h
  have hgetE : segments[i] = s := by injection h
  have hdrop' : segments.drop (i + 1) = t := by injection h
  refine ⟨hidx, ?_, hdrop'⟩
  rw [List.getD_eq_getElem?_getD, List.getElem?_eq_getElem hidx, hgetE]
  rfl

/-! ### Effect of a single route insertion on the trie -/

/-- Inserting a pattern writes its classification at the trie position where
the pattern terminates. -/
theorem patClass_addSegments : ∀ (segs : List Seg) (t : RouteNode) (b : Bool),
    patClass (addSegments t segs b) segs = some b := by
  intro segs
  induction segs with
  | nil =>
    intro t b
    cases t with
    | mk ch dy ca pr =>
      simp [addSegments, patClass, lookupNodePat, RouteNode.isProtected]
  | cons seg rest ih =>
    intro t b
    cases t with
    | mk ch dy ca pr =>
      by_cases hcs : isCatchAllSeg seg = true
      · cases ca with
        | some c =>
          obtain ⟨n, o⟩ := c
          simpa [addSegments, hcs, patClass, lookupNodePat, RouteNode.catchAllChild]
            using ih n b
        | none =>
          simpa [addSegments, hcs, patClass, lookupNodePat, RouteNode.catchAllChild]
            using ih emptyNode b
      · by_cases hds : isDynamicSeg seg = true
        · cases dy with
          | some n =>
            simpa [addSegments, hcs, hds, patClass, lookupNodePat, RouteNode.dynamicChild]
              using ih n b
          | none =>
            simpa [addSegments, hcs, hds, patClass, lookupNodePat, RouteNode.dynamicChild]
              using ih emptyNode b
        · cases hg : mapGet? ch seg with
          | some n =>
            simpa [addSegments, hcs, hds, hg, patClass, lookupNodePat, RouteNode.children,
              mapGet?_set_self] using ih n b
          | none =>
            simpa [addSegments, hcs, hds, hg, patClass, lookupNodePat, RouteNode.children,
              mapGet?_set_self] using ih emptyNode b

/-- A single insertion either leaves the classification stored at a position
unchanged or overwrites it with the inserted flag, and it never changes the
optionality flag of an existing catch-all child. -/
theorem addSegments_preserve : ∀ (segs2 : List Seg) (t : RouteNode) (b : Bool) (segs : List Seg),
    (∀ bb, patClass t segs = some bb →
      patClass (addSegments t segs2 b) segs = some bb ∨
      patClass (addSegments t segs2 b) segs = some b) ∧
    (∀ o, caOptAt t segs = some o → caOptAt (addSegments t segs2 b) segs = some o) := by
  intro segs2
  induction segs2 with
  | nil =>
    intro t b segs
    cases t with
    | mk ch dy ca pr =>
      cases segs with
      | nil =>
        constructor
        · intro bb _
          right
          simp [addSegments, patClass, lookupNodePat, RouteNode.isProtected]
        · intro o ho
          simpa [addSegments, caOptAt, lookupNodePat, RouteNode.catchAllChild] using ho
      | cons a as =>
        constructor
        · intro bb hb
          left
          simpa [addSegments, patClass, lookupNodePat, RouteNode.children,
            RouteNode.dynamicChild, RouteNode.catchAllChild] using hb
        · intro o ho
          simpa [addSegments, caOptAt, lookupNodePat, RouteNode.children,
            RouteNode.dynamicChild, RouteNode.catchAllChild] using ho
  | cons x r2 ih =>
    intro t b segs
    cases t with
    | mk ch dy ca pr =>
      cases segs with
      | nil =>
        by_cases hcx : isCatchAllSeg x = true
        · cases ca with
          | some c =>
            obtain ⟨n, o'⟩ := c
            constructor
            · intro bb hb
              left
              simpa [addSegments, hcx, patClass, lookupNodePat, RouteNode.isProtected] using hb
            · intro o ho
              simp [caOptAt, lookupNodePat, RouteNode.catchAllChild] at ho
              simp [addSegments, hcx, caOptAt, lookupNodePat, RouteNode.catchAllChild, ho]
          | none =>
            constructor
            · intro bb hb
              left
              simpa [addSegments, hcx, patClass, lookupNodePat, RouteNode.isProtected] using hb
            · intro o ho
              simp [caOptAt, lookupNodePat, RouteNode.catchAllChild] at ho
        · by_cases hdx : isDynamicSeg x = true
          · constructor
            · intro bb hb
              left
              cases dy <;>
                simpa [addSegments, hcx, hdx, patClass, lookupNodePat,
                  RouteNode.isProtected] using hb
            · intro o ho
              cases dy <;>
                simpa [addSegments, hcx, hdx, caOptAt, lookupNodePat,
                  RouteNode.catchAllChild] using ho
          · constructor
            · intro bb hb
              left
              cases hg : mapGet? ch x <;>
                simpa [addSegments, hcx, hdx, hg, patClass, lookupNodePat,
                  RouteNode.isProtected] using hb
            · intro o ho
              cases hg : mapGet? ch x <;>
                simpa [addSegments, hcx, hdx, hg, caOptAt, lookupNodePat,
                  RouteNode.catchAllChild] using ho
      | cons a as =>
        by_cases hcs : isCatchAllSeg a = true
        · by_cases hcx : isCatchAllSeg x = true
          · cases ca with
            | some c =>
              obtain ⟨n, o'⟩ := c
              constructor
              · intro bb hb
                have hb' : patClass n as = some bb := by
                  simpa [patClass, lookupNodePat, hcs, RouteNode.catchAllChild] using hb
                have := (ih n b as).1 bb hb'
                simpa [addSegments, hcx, patClass, lookupNodePat, hcs,
                  RouteNode.catchAllChild] using this
              · intro o ho
                have ho' : caOptAt n as = some o := by
                  simpa [caOptAt, lookupNodePat, hcs, RouteNode.catchAllChild] using ho
                have := (ih n b as).2 o ho'
                simpa [addSegments, hcx, caOptAt, lookupNodePat, hcs,
                  RouteNode.catchAllChild] using this
            | none =>
              constructor
              · intro bb hb
                simp [patClass, lookupNodePat, hcs, RouteNode.catchAllChild] at hb
              · intro o ho
                simp [caOptAt, lookupNodePat, hcs, RouteNode.catchAllChild] at ho
          · by_cases hdx : isDynamicSeg x = true
            · constructor
              · intro bb hb
                left
                cases dy <;>
                  simpa [addSegments, hcx, hdx, patClass, lookupNodePat, hcs,
                    RouteNode.catchAllChild] using hb
              · intro o ho
                cases dy <;>
                  simpa [addSegments, hcx, hdx, caOptAt, lookupNodePat, hcs,
                    RouteNode.catchAllChild] using ho
            · constructor
              · intro bb hb
                left
                cases hg : mapGet? ch x <;>
                  simpa [addSegments, hcx, hdx, hg, patClass, lookupNodePat, hcs,
                    RouteNode.catchAllChild] using hb
              · intro o ho
                cases hg : mapGet? ch x <;>
                  simpa [addSegments, hcx, hdx, hg, caOptAt, lookupNodePat, hcs,
                    RouteNode.catchAllChild] using ho
        · by_cases hds : isDynamicSeg a = true
          · by_cases hcx : isCatchAllSeg x = true
            · constructor
              · intro bb hb
                left
                cases ca <;>
                  simpa [addSegments, hcx, patClass, lookupNodePat, hcs, hds,
                    RouteNode.dynamicChild] using hb
              · intro o ho
                cases ca <;>
                  simpa [addSegments, hcx, caOptAt, lookupNodePat, hcs, hds,
                    RouteNode.dynamicChild] using ho
            · by_cases hdx : isDynamicSeg x = true
              · cases dy with
                | some n =>
                  constructor
                  · intro bb hb
                    have hb' : patClass n as = some bb := by
                      simpa [patClass, lookupNodePat, hcs, hds, RouteNode.dynamicChild] using hb
                    have := (ih n b as).1 bb hb'
                    simpa [addSegments, hcx, hdx, patClass, lookupNodePat, hcs, hds,
                      RouteNode.dynamicChild] using this
                  · intro o ho
                    have ho' : caOptAt n as = some o := by
                      simpa [caOptAt, lookupNodePat, hcs, hds, RouteNode.dynamicChild] using ho
                    have := (ih n b as).2 o ho'
                    simpa [addSegments, hcx, hdx, caOptAt, lookupNodePat, hcs, hds,
                      RouteNode.dynamicChild] using this
                | none =>
                  constructor
                  · intro bb hb
                    simp [patClass, lookupNodePat, hcs, hds, RouteNode.dynamicChild] at hb
                  · intro o ho
                    simp [caOptAt, lookupNodePat, hcs, hds, RouteNode.dynamicChild] at ho
              · constructor
                · intro bb hb
                  left
                  cases hg : mapGet? ch x <;>
                    simpa [addSegments, hcx, hdx, hg, patClass, lookupNodePat, hcs, hds,
                      RouteNode.dynamicChild] using hb
                · intro o ho
                  cases hg : mapGet? ch x <;>
                    simpa [addSegments, hcx, hdx, hg, caOptAt, lookupNodePat, hcs, hds,
                      RouteNode.dynamicChild] using ho
          · by_cases hcx : isCatchAllSeg x = true
            · constructor
              · intro bb hb
                left
                cases ca <;>
                  simpa [addSegments, hcx, patClass, lookupNodePat, hcs, hds,
                    RouteNode.children] using hb
              · intro o ho
                cases ca <;>
                  simpa [addSegments, hcx, caOptAt, lookupNodePat, hcs, hds,
                    RouteNode.children] using ho
            · by_cases hdx : isDynamicSeg x = true
              · constructor
                · intro bb hb
                  left
                  cases dy <;>
                    simpa [addSegments, hcx, hdx, patClass, lookupNodePat, hcs, hds,
                      RouteNode.children] using hb
                · intro o ho
                  cases dy <;>
                    simpa [addSegments, hcx, hdx, caOptAt, lookupNodePat, hcs, hds,
                      RouteNode.children] using ho
              · cases hga : mapGet? ch a with
                | none =>
                  constructor
                  · intro bb hb
                    simp [patClass, lookupNodePat, hcs, hds, RouteNode.children, hga] at hb
                  · intro o ho
                    simp [caOptAt, lookupNodePat, hcs, hds, RouteNode.children, hga] at ho
                | some n =>
                  by_cases hax : x = a
                  · subst hax
                    constructor
                    · intro bb hb
                      have hb' : patClass n as = some bb := by
                        simpa [patClass, lookupNodePat, hcs, hds, RouteNode.children, hga]
                          using hb
                      have := (ih n b as).1 bb hb'
                      simpa [addSegments, hcx, hdx, hga, patClass, lookupNodePat, hcs, hds,
                        RouteNode.children, mapGet?_set_self] using this
                    · intro o ho
                      have ho' : caOptAt n as = some o := by
                        simpa [caOptAt, lookupNodePat, hcs, hds, RouteNode.children, hga]
                          using ho
                      have := (ih n b as).2 o ho'
                      simpa [addSegments, hcx, hdx, hga, caOptAt, lookupNodePat, hcs, hds,
                        RouteNode.children, mapGet?_set_self] using this
                  · constructor
                    · intro bb hb
                      left
                      cases hgx : mapGet? ch x <;>
                        simpa [addSegments, hcx, hdx, hgx, patClass, lookupNodePat, hcs, hds,
                          RouteNode.children, mapGet?_set_ne _ _ _ _ hax, hga] using hb
                    · intro o ho
                      cases hgx : mapGet? ch x <;>
                        simpa [addSegments, hcx, hdx, hgx, caOptAt, lookupNodePat, hcs, hds,
                          RouteNode.children, mapGet?_set_ne _ _ _ _ hax, hga] using ho

/-- All-public folds keep a public classification at any position. -/
theorem patClass_foldl_false (l : List String) (t : RouteNode) (segs : List Seg)
    (h : patClass t segs = some false) :
    patClass (l.foldl (fun tt r => addRouteToTrie tt r false) t) segs = some false := by
  induction l generalizing t with
  | nil => exact h
  | cons r rl ih =>
    apply ih
    rcases (addSegments_preserve (splitSlash r.data) t false segs).1 false h with h1 | h1 <;>
      exact h1

/-- Matching along an all-literal suffix reaches the stored classification. -/
theorem findMatch_litDescent : ∀ (l : List Seg) (segments : List Seg) (i : Nat)
    (node : RouteNode) (d b : Bool),
    segments.drop i = l → l.all isLiteralSeg = true → patClass node l = some b →
    findMatch node segments i d = b := by
  intro l
  induction l with
  | nil =>
    intro segments i node d b hdrop _ hp
    rw [findMatch_end node segments i d (List.drop_eq_nil_iff.mp hdrop)]
    cases node with
    | mk ch dy ca pr =>
      simp [patClass, lookupNodePat, RouteNode.isProtected] at hp
      simp [endOfPath, RouteNode.isProtected, hp]
  | cons s t ih =>
    intro segments i node d b hdrop hall hp
    obtain ⟨hidx, hget, hdrop'⟩ := drop_cons_facts segments i s t hdrop
    simp only [List.all_cons, Bool.and_eq_true] at hall
    obtain ⟨hs, ht⟩ := hall
    have hcs : isCatchAllSeg s = false := by
      simp only [isLiteralSeg, Bool.and_eq_true, Bool.not_eq_true'] at hs
      exact hs.1
    have hds : isDynamicSeg s = false := by
      simp only [isLiteralSeg, Bool.and_eq_true, Bool.not_eq_true'] at hs
      exact hs.2
    obtain ⟨ch, dy, ca, pr⟩ := node
    simp only [patClass, lookupNodePat, hcs, hds, RouteNode.children,
      Bool.false_eq_true, if_false] at hp
    cases hg : mapGet? ch s with
    | none =>
      rw [hg] at hp
      cases hp
    | some n =>
      rw [hg] at hp
      rw [findMatch_lit (RouteNode.mk ch dy ca pr) n segments i d hidx
        (by rw [hget]; exact hg)]
      exact ih segments (i + 1) n d b hdrop' ht hp

/-! ### The matcher follows the rule-at-exact-depth descent -/

theorem firstSplitAux_none (can : RouteNode) :
    ∀ (l : List Seg) (i : Nat), (∀ u ∈ l, mapGet? can.children u = none) →
      firstSplitAux can l i = none := by
  intro l
  induction l with
  | nil => intro i _; rfl
  | cons s t ih =>
    intro i h
    have hs := h s (List.mem_cons_self s t)
    simp only [firstSplitAux, hs]
    exact ih (i + 1) (fun u hu => h u (List.mem_cons_of_mem s hu))

theorem firstSplitAux_key (can restN : RouteNode) (r : Seg) (post : List Seg)
    (hkey : mapGet? can.children r = some restN) :
    ∀ (pre : List Seg) (i : Nat), (∀ u ∈ pre, mapGet? can.children u = none) →
      firstSplitAux can (pre ++ r :: post) i = some (restN, i + (pre.length + 1)) := by
  intro pre
  induction pre with
  | nil =>
    intro i _
    simp [firstSplitAux, hkey]
  | cons w pre' ih =>
    intro i h
    have hw := h w (List.mem_cons_self w pre')
    simp only [List.cons_append, firstSplitAux, hw, List.append_eq]
    rw [ih (i + 1) (fun u hu => h u (List.mem_cons_of_mem w hu))]
    rw [show i + 1 + (pre'.length + 1) = i + ((w :: pre').length + 1) from by
      simp [List.length_cons]; omega]

theorem drop_head_facts (segments us : List Seg) (i : Nat)
    (h : segments.drop i = us) (hne : us ≠ []) :
    i < segments.length ∧ segments.getD i [] = us.headD [] ∧
      segments.drop (i + 1) = us.tail := by
  cases us with
  | nil => exact absurd rfl hne
  | cons w t =>
    obtain ⟨h1, h2, h3⟩ := drop_cons_facts segments i w t h
    exact ⟨h1, by rw [List.headD_cons]; exact h2, by rw [List.tail_cons]; exact h3⟩

theorem drop_append_cons (r : Seg) (post : List Seg) :
    ∀ pre : List Seg, (pre ++ r :: post).drop (pre.length + 1) = post := by
  intro pre
  induction pre with
  | nil => simp
  | cons w pre' ih =>
    simp only [List.cons_append, List.length_cons, List.drop_succ_cons]
    exact ih

/-- Soundness of `RuleAt`: when the rule at a path's exact depth is a
pattern whose terminal position stores classification `b`, the matcher
returns `b` on that path. -/
theorem findMatch_ruleAt :
    ∀ (node : RouteNode) (ps us : List Seg), RuleAt node ps us →
      ∀ (segments : List Seg) (i : Nat) (d b : Bool), segments.drop i = us →
        patClass node ps = some b → findMatch node segments i d = b := by
  intro node ps us hr
  induction hr with
  | @endExact node' =>
    intro segments i d b hdrop hp
    rw [findMatch_end node' segments i d (List.drop_eq_nil_iff.mp hdrop)]
    simp only [patClass, lookupNodePat, Option.some_bind] at hp
    simp [endOfPath, hp]
  | @litStep node' child seg ps' us' hcs hds hchild hrest ih =>
    intro segments i d b hdrop hp
    obtain ⟨hidx, hget, hdrop'⟩ := drop_cons_facts segments i seg us' hdrop
    have hp' : patClass child ps' = some b := by
      simp only [patClass, lookupNodePat, hcs, hds, Bool.false_eq_true, if_false] at hp
      rw [hchild] at hp
      exact hp
    rw [findMatch_lit node' child segments i d hidx (by rw [hget]; exact hchild)]
    exact ih segments (i + 1) d b hdrop' hp'
  | @dynStep node' child seg u ps' us' hcs hds hnolit hchild hrest ih =>
    intro segments i d b hdrop hp
    obtain ⟨hidx, hget, hdrop'⟩ := drop_cons_facts segments i u us' hdrop
    have hp' : patClass child ps' = some b := by
      simp only [patClass, lookupNodePat, hcs, hds, Bool.false_eq_true, if_false,
        if_true] at hp
      rw [hchild] at hp
      exact hp
    rw [findMatch_dyn node' child segments i d hidx (by rw [hget]; exact hnolit) hchild]
    exact ih segments (i + 1) d b hdrop' hp'
  | @caAll node' can o seg us' hcs hca hne hnolit hnodyn hnokey =>
    intro segments i d b hdrop hp
    obtain ⟨hidx, hget, _⟩ := drop_head_facts segments us' i hdrop hne
    have hb : can.isProtected = some b := by
      simp only [patClass, lookupNodePat, hcs, if_true] at hp
      rw [hca] at hp
      simpa [lookupNodePat] using hp
    by_cases hch : can.children.length ≠ 0
    · rw [findMatch_catchAll node' can o segments i d hidx (by rw [hget]; exact hnolit)
        hnodyn hca hch]
      have hfs : firstSplit can segments i = none := by
        simp only [firstSplit]
        rw [hdrop]
        exact firstSplitAux_none can us' i hnokey
      rw [hfs]
      simp [hb]
    · have hch0 : can.children.length = 0 := by omega
      rw [findMatch_catchAllEmpty node' can o segments i d hidx (by rw [hget]; exact hnolit)
        hnodyn hca hch0]
      simp [hb]
  | @caOptEnd node' can seg hcs hp0 hca =>
    intro segments i d b hdrop hp
    rw [findMatch_end node' segments i d (List.drop_eq_nil_iff.mp hdrop)]
    have hb : can.isProtected = some b := by
      simp only [patClass, lookupNodePat, hcs, if_true] at hp
      rw [hca] at hp
      simpa [lookupNodePat] using hp
    simp [endOfPath, hp0, hca, hb]
  | @caRest node' can restN o seg r ps' pre post hcs hca hnolit hnodyn hr1 hr2 hpre
      hkey hrest ih =>
    intro segments i d b hdrop hp
    have hne : pre ++ r :: post ≠ [] := by simp
    obtain ⟨hidx, hget, _⟩ := drop_head_facts segments (pre ++ r :: post) i hdrop hne
    have hch : can.children.length ≠ 0 := by
      intro h0
      rw [List.length_eq_zero.mp h0] at hkey
      simp [mapGet?] at hkey
    have hp' : patClass restN ps' = some b := by
      simp only [patClass, lookupNodePat, hcs, if_true] at hp
      rw [hca] at hp
      simp only [hr1, hr2, Bool.false_eq_true, if_false] at hp
      rw [hkey] at hp
      exact hp
    rw [findMatch_catchAll node' can o segments i d hidx (by rw [hget]; exact hnolit)
      hnodyn hca hch]
    have hfs : firstSplit can segments i = some (restN, i + (pre.length + 1)) := by
      simp only [firstSplit]
      rw [hdrop]
      exact firstSplitAux_key can restN r post hkey pre i hpre
    rw [hfs]
    have hdrop2 : segments.drop (i + (pre.length + 1)) = post := by
      rw [← List.drop_drop, hdrop]
      exact drop_append_cons r post pre
    exact ih segments (i + (pre.length + 1)) d b hdrop2 hp'

/-! ### Path normalization lemmas -/

theorem takeUntilChar_append_cons (c : Char) (l r : List Char) :
    takeUntilChar c (l ++ c :: r) = takeUntilChar c l := by
  induction l with
  | nil => simp [takeUntilChar]
  | cons a t ih =>
    by_cases ha : a = c
    · simp [takeUntilChar, ha]
    · simp only [takeUntilChar, List.cons_append, List.takeWhile_cons] at ih ⊢
      simp [ha]
      simpa [takeUntilChar] using ih

theorem takeUntilChar_append_of_mem (c : Char) (l m : List Char) (h : c ∈ l) :
    takeUntilChar c (l ++ m) = takeUntilChar c l := by
  induction l with
  | nil => cases h
  | cons a t ih =>
    by_cases ha : a = c
    · simp [takeUntilChar, ha]
    · rcases List.mem_cons.mp h with hca | ht
      · exact absurd hca.symm ha
      · simp only [takeUntilChar, List.cons_append, List.takeWhile_cons] at ih ⊢
        simp [ha]
        simpa [takeUntilChar] using ih ht

theorem takeUntilChar_of_not_mem (c : Char) (l : List Char) (h : c ∉ l) :
    takeUntilChar c l = l := by
  induction l with
  | nil => rfl
  | cons a t ih =>
    simp only [List.mem_cons, not_or] at h
    obtain ⟨h1, h2⟩ := h
    simp [takeUntilChar, Ne.symm h1, List.takeWhile_cons]
    simpa [takeUntilChar] using ih h2

theorem takeUntilChar_append_of_not_mem (c : Char) (l m : List Char) (h : c ∉ l) :
    takeUntilChar c (l ++ m) = l ++ takeUntilChar c m := by
  induction l with
  | nil => rfl
  | cons a t ih =>
    simp only [List.mem_cons, not_or] at h
    obtain ⟨h1, h2⟩ := h
    simp only [takeUntilChar, List.cons_append, List.takeWhile_cons] at ih ⊢
    simp [Ne.symm h1]
    simpa [takeUntilChar] using ih h2

theorem splitOnChar_ne_nil (c : Char) (l : List Char) : splitOnChar c l ≠ [] := by
  cases l with
  | nil => simp [splitOnChar]
  | cons a t =>
    by_cases ha : a = c
    · simp [splitOnChar, ha]
    · cases hsp : splitOnChar c t <;> simp [splitOnChar, ha, hsp]

theorem splitOnChar_concat (c : Char) (x : List Char) :
    splitOnChar c (x ++ [c]) = splitOnChar c x ++ [[]] := by
  induction x with
  | nil => simp [splitOnChar]
  | cons a t ih =>
    by_cases ha : a = c
    · simp [splitOnChar, ha, ih]
    · cases hsp : splitOnChar c t with
      | nil => exact absurd hsp (splitOnChar_ne_nil c t)
      | cons h r =>
        rw [hsp] at ih
        simp [splitOnChar, ha, ih, hsp]

theorem splitSlash_concat (x : List Char) : splitSlash (x ++ ['/']) = splitSlash x := by
  simp [splitSlash, splitOnChar_concat, List.filter_append]

theorem stripSlash_concat (x : List Char) (hx : x ≠ []) : stripSlash (x ++ ['/']) = x := by
  have h1 : (x ++ ['/']).getLast? = some '/' := List.getLast?_concat x
  have h2 : 1 < (x ++ ['/']).length := by
    have hp := List.length_pos.mpr hx
    simp only [List.length_append, List.length_cons, List.length_nil]
    omega
  simp [stripSlash, h1, h2, List.dropLast_concat, hx]

theorem matchClean_concat_slash (x : List Char) (t : RouteNode) (d : Bool)
    (hx0 : x ≠ []) (hx1 : x ≠ ['/']) :
    matchClean (x ++ ['/']) t d = matchClean x t d := by
  have hne : x ++ ['/'] ≠ ['/'] := by
    intro hh
    have hlen := congrArg List.length hh
    simp [List.length_append] at hlen
    exact hx0 hlen
  rw [matchClean, matchClean, if_neg hne, if_neg hx1, splitSlash_concat]

theorem rawPath_append_q (l r : List Char) :
    rawPath (l ++ '?' :: r) = rawPath l := by
  rw [rawPath, rawPath, takeUntilChar_append_cons]

theorem rawPath_append_slash (l : List Char) :
    rawPath (l ++ ['/']) = rawPath l ∨
      rawPath (l ++ ['/']) = rawPath l ++ ['/'] := by
  by_cases hq : '?' ∈ l
  · left
    rw [rawPath, rawPath, takeUntilChar_append_of_mem _ _ _ hq]
  · rw [rawPath, rawPath, takeUntilChar_append_of_not_mem _ _ _ hq,
      takeUntilChar_of_not_mem _ _ hq,
      show takeUntilChar '?' ['/'] = ['/'] from rfl]
    by_cases hh : '#' ∈ l
    · left
      rw [takeUntilChar_append_of_mem _ _ _ hh]
    · right
      rw [takeUntilChar_append_of_not_mem _ _ _ hh, takeUntilChar_of_not_mem _ _ hh,
        show takeUntilChar '#' ['/'] = ['/'] from rfl]

/-! ### Claim theorems -/

/-- C1 (counterexample): with only `/a` registered (protected), the path
`/a/b` has `/a` as its deepest registered ancestor prefix, yet the matcher
returns the default `false`, not the ancestor's classification `true`. -/
theorem ancestorNotInherited_cex :
    matchPath "/a" (buildRouteTrie (RouteMap.mk ["/a"] [])) false = true ∧
    matchPath "/a/b" (buildRouteTrie (RouteMap.mk ["/a"] [])) false = false := by
  constructor <;> decide

/-- C1 (amended): when descent fails at a node — no literal child for the
current segment, no dynamic child, no catch-all child — the matcher returns
`defaultProtected`; ancestor classifications are not inherited. -/
theorem descentFailureDefaults (node : RouteNode) (segments : List Seg) (index : Nat)
    (d : Bool)
    (hidx : index < segments.length)
    (hc : mapGet? node.children (segments.getD index []) = none)
    (hd : node.dynamicChild = none)
    (hca : node.catchAllChild = none) :
    findMatch node segments index d = d :=
  findMatch_noBranch node segments index d hidx hc hd hca

theorem descentFailureDefaults_witness :
    (0 : Nat) < ([['a']] : List Seg).length ∧
      findMatch emptyNode [['a']] 0 false = false :=
  ⟨by decide, descentFailureDefaults emptyNode [['a']] 0 false (by decide) rfl rfl rfl⟩

/-- C2 (counterexample): with pattern `/docs/[...slug]/a/b` protected, the
path `/docs/z/a/b` matches the full chain, but `/docs/a/c/a/b` returns the
default `false` although split point 3 yields the complete chain `a/b` to
the end of the path: the matcher committed to split point 1 and did not try
later split points after the continuation failed. -/
theorem restSplitStrict_cex :
    matchPath "/docs/z/a/b" (buildRouteTrie (RouteMap.mk ["/docs/[...slug]/a/b"] []))
        false = true ∧
    matchPath "/docs/a/c/a/b" (buildRouteTrie (RouteMap.mk ["/docs/[...slug]/a/b"] []))
        false = false := by
  constructor <;> decide

/-- C2 (amended): at a catch-all whose node has rest-segment children, the
matcher commits to the first split point whose segment is a rest-segment
key and returns the recursive result from just past that key (even if that
continuation does not reach the end of the path — later split points are
not tried); only when no remaining segment is a rest-segment key does the
catch-all consume all remaining segments, yielding its own classification
or the default. -/
theorem restSplitCommits (node can : RouteNode) (o : Bool) (segments : List Seg)
    (index : Nat) (d : Bool)
    (hidx : index < segments.length)
    (hc : mapGet? node.children (segments.getD index []) = none)
    (hd : node.dynamicChild = none)
    (hca : node.catchAllChild = some (can, o))
    (hch : can.children.length ≠ 0) :
    findMatch node segments index d =
      (match firstSplit can segments index with
        | some (n, j) => findMatch n segments j d
        | none => can.isProtected.getD d) :=
  findMatch_catchAll node can o segments index d hidx hc hd hca hch

theorem restSplitCommits_witness :
    (RouteNode.mk [(['e'], RouteNode.mk [] none none (some true))] none none
        none).children.length ≠ 0 ∧
      findMatch (RouteNode.mk [] none (some (RouteNode.mk
          [(['e'], RouteNode.mk [] none none (some true))] none none none, false)) none)
        [['e'], ['c']] 0 false =
      (match firstSplit (RouteNode.mk [(['e'], RouteNode.mk [] none none (some true))]
          none none none) [['e'], ['c']] 0 with
        | some (n, j) => findMatch n [['e'], ['c']] j false
        | none => (RouteNode.mk [(['e'], RouteNode.mk [] none none (some true))] none none
            none).isProtected.getD false) :=
  ⟨by decide, restSplitCommits
    (RouteNode.mk [] none (some (RouteNode.mk [(['e'], RouteNode.mk [] none none (some true))]
      none none none, false)) none)
    (RouteNode.mk [(['e'], RouteNode.mk [] none none (some true))] none none none)
    false [['e'], ['c']] 0 false (by decide) rfl rfl rfl (by decide)⟩

/-- C3 (counterexample): with only the optional catch-all `/[[...x]]`
registered as public, non-root paths are public, but the root path `/`
returns the default `true`: the root special case consults only
`root.isProtected`, never the optional catch-all. -/
theorem rootOptionalCatchAll_cex :
    matchPath "/x/y" (buildRouteTrie (RouteMap.mk [] ["/[[...x]]"])) true = false ∧
    matchPath "/" (buildRouteTrie (RouteMap.mk [] ["/[[...x]]"])) true = true := by
  constructor <;> decide

/-- C3 (amended): at end of path, a node with no explicit classification and
an optional catch-all child yields the catch-all's classification (the
optional catch-all matches zero segments at every non-root base); for the
root path `/` itself, however, `matchPath` returns `root.isProtected` if
set, else the default, without consulting any catch-all. -/
theorem optionalCatchAllBase (node can : RouteNode) (segments : List Seg) (index : Nat)
    (d : Bool) (t : RouteNode)
    (hlen : segments.length ≤ index)
    (hp : node.isProtected = none)
    (hca : node.catchAllChild = some (can, true)) :
    findMatch node segments index d = can.isProtected.getD d ∧
    matchPath "/" t d = t.isProtected.getD d := by
  constructor
  · rw [findMatch_end node segments index d hlen]
    obtain ⟨ch, dy, ca, pr⟩ := node
    simp only [RouteNode.isProtected] at hp
    simp only [RouteNode.catchAllChild] at hca
    subst hp
    subst hca
    simp [endOfPath, RouteNode.isProtected, RouteNode.catchAllChild]
  · simp [matchPath, rawPath, takeUntilChar, stripSlash, matchClean]

theorem optionalCatchAllBase_witness :
    (([] : List Seg).length ≤ 0) ∧
      (findMatch (RouteNode.mk [] none (some (RouteNode.mk [] none none (some false),
          true)) none) [] 0 true =
        (RouteNode.mk [] none none (some false)).isProtected.getD true ∧
      matchPath "/" emptyNode true = emptyNode.isProtected.getD true) :=
  ⟨by decide, optionalCatchAllBase _ _ [] 0 true emptyNode (by decide) rfl rfl⟩

/-- C4 (confirmed): a pattern present in both lists ends up classified
public at its trie position (protected routes are inserted first, public
routes afterwards, and the later insertion wins), and matching any path
whose rule at its exact depth is that pattern — any URL path whose
`findMatch` descent follows the pattern's branches to its terminal
position, as captured by `RuleAt` for literal, dynamic, and catch-all
segments alike — returns false. -/
theorem publicOverridesProtected (rm : RouteMap) (s : String)
    (h1 : s ∈ rm.protectedRoutes) (h2 : s ∈ rm.publicRoutes) :
    patClass (buildRouteTrie rm) (splitSlash s.data) = some false ∧
    ∀ (us : List Seg) (d : Bool),
      RuleAt (buildRouteTrie rm) (splitSlash s.data) us →
      findMatch (buildRouteTrie rm) us 0 d = false := by
  have hstored : patClass (buildRouteTrie rm) (splitSlash s.data) = some false := by
    obtain ⟨l1, l2, hsplit⟩ := List.append_of_mem h2
    rw [buildRouteTrie, hsplit, List.foldl_append, List.foldl_cons]
    apply patClass_foldl_false
    exact patClass_addSegments (splitSlash s.data) _ false
  refine ⟨hstored, fun us d hr => ?_⟩
  exact findMatch_ruleAt (buildRouteTrie rm) (splitSlash s.data) us hr us 0 d false
    (List.drop_zero us) hstored

theorem publicOverridesProtected_witness :
    patClass (buildRouteTrie (RouteMap.mk ["/d/[...s]/e"] ["/d/[...s]/e"]))
        (splitSlash ("/d/[...s]/e" : String).data) = some false ∧
      findMatch (buildRouteTrie (RouteMap.mk ["/d/[...s]/e"] ["/d/[...s]/e"]))
        [['d'], ['x'], ['e']] 0 true = false := by
  have hr : RuleAt (buildRouteTrie (RouteMap.mk ["/d/[...s]/e"] ["/d/[...s]/e"]))
      (splitSlash ("/d/[...s]/e" : String).data) [['d'], ['x'], ['e']] := by
    show RuleAt _ [['d'], ['[', '.', '.', '.', 's', ']'], ['e']] [['d'], ['x'], ['e']]
    refine RuleAt.litStep (by decide) (by decide) rfl ?_
    exact @RuleAt.caRest _ _ _ _ ['[', '.', '.', '.', 's', ']'] ['e'] [] [['x']] []
      (by decide) rfl rfl rfl (by decide) (by decide)
      (fun u hu => by rw [List.mem_singleton] at hu; subst hu; rfl) rfl
      RuleAt.endExact
  exact ⟨(publicOverridesProtected (RouteMap.mk ["/d/[...s]/e"] ["/d/[...s]/e"])
      "/d/[...s]/e" (by decide) (by decide)).1,
    (publicOverridesProtected (RouteMap.mk ["/d/[...s]/e"] ["/d/[...s]/e"])
      "/d/[...s]/e" (by decide) (by decide)).2 [['d'], ['x'], ['e']] true hr⟩

/-- C5 (counterexample): for the pattern `/a/[...x]/[...y]`, the catch-all
node reached at `/a/[...x]` has no literal child keyed `[...y]` (its
children map is empty) and instead has a nested catch-all child; matching
the literal path `/a/[...y]` accordingly returns the default `false`, not
the pattern's classification. -/
theorem doubleCatchAll_cex :
    hasLiteralChildAt (buildRouteTrie (RouteMap.mk ["/a/[...x]/[...y]"] []))
        [['a'], ['[', '.', '.', '.', 'x', ']']] ['[', '.', '.', '.', 'y', ']'] = false ∧
    childCountAt (buildRouteTrie (RouteMap.mk ["/a/[...x]/[...y]"] []))
        [['a'], ['[', '.', '.', '.', 'x', ']']] = 0 ∧
    hasCatchAllAt (buildRouteTrie (RouteMap.mk ["/a/[...x]/[...y]"] []))
        [['a'], ['[', '.', '.', '.', 'x', ']']] = true ∧
    matchPath "/a/[...y]" (buildRouteTrie (RouteMap.mk ["/a/[...x]/[...y]"] []))
        false = false := by
  refine ⟨?_, ?_, ?_, ?_⟩ <;> decide

/-- C5 (amended): a second catch-all segment is itself recognized by the
catch-all test and becomes a nested catch-all child of the first catch-all
node (holding the terminal classification and its own optionality), not a
rest-segment literal in the children map. -/
theorem doubleCatchAllNested (t : RouteNode) (c1 c2 : Seg) (b : Bool)
    (h1 : isCatchAllSeg c1 = true) (h2 : isCatchAllSeg c2 = true)
    (hca : t.catchAllChild = none) :
    (addSegments t [c1, c2] b).catchAllChild =
      some (RouteNode.mk [] none
        (some (RouteNode.mk [] none none (some b), isOptionalCatchAll c2)) none,
        isOptionalCatchAll c1) := by
  obtain ⟨ch, dy, ca, pr⟩ := t
  simp only [RouteNode.catchAllChild] at hca
  subst hca
  simp [addSegments, h1, h2, emptyNode, RouteNode.catchAllChild]

theorem doubleCatchAllNested_witness :
    isCatchAllSeg ['[', '.', '.', '.', 'x', ']'] = true ∧
      (addSegments emptyNode [['[', '.', '.', '.', 'x', ']'], ['[', '.', '.', '.', 'y', ']']]
          true).catchAllChild =
        some (RouteNode.mk [] none
          (some (RouteNode.mk [] none none (some true),
            isOptionalCatchAll ['[', '.', '.', '.', 'y', ']'])) none,
          isOptionalCatchAll ['[', '.', '.', '.', 'x', ']']) :=
  ⟨by decide, doubleCatchAllNested emptyNode ['[', '.', '.', '.', 'x', ']']
    ['[', '.', '.', '.', 'y', ']'] true (by decide) (by decide) rfl⟩

/-- C6 (counterexample): the unbalanced segment `[...foo` starts with `[...`
and is therefore treated as a catch-all, not a literal: `/a/zzz` matches it
(returns protected), node `/a` has a catch-all child, and no literal child
keyed `[...foo` exists. -/
theorem unbalancedBrackets_cex :
    matchPath "/a/zzz" (buildRouteTrie (RouteMap.mk ["/a/[...foo"] [])) false = true ∧
    hasLiteralChildAt (buildRouteTrie (RouteMap.mk ["/a/[...foo"] [])) [['a']]
        ['[', '.', '.', '.', 'f', 'o', 'o'] = false ∧
    hasCatchAllAt (buildRouteTrie (RouteMap.mk ["/a/[...foo"] [])) [['a']] = true := by
  refine ⟨?_, ?_, ?_⟩ <;> decide

/-- C6 (amended): a segment that does not start with `[...` or `[[...` and
is not of the dynamic form (starting with `[` and ending with `]`) is
inserted as a literal child under its exact string, leaves the dynamic and
catch-all children untouched, matches its own string, and does not match
any other URL segment; segments starting with `[...` or `[[...` are treated
as catch-alls even with unbalanced brackets. -/
theorem malformedSegLiteral (t : RouteNode) (seg u : Seg) (b d : Bool)
    (h1 : isCatchAllSeg seg = false) (h2 : isDynamicSeg seg = false) (hu : u ≠ seg) :
    (mapGet? (addSegments t [seg] b).children seg).bind RouteNode.isProtected = some b ∧
    (addSegments t [seg] b).dynamicChild = t.dynamicChild ∧
    (addSegments t [seg] b).catchAllChild = t.catchAllChild ∧
    findMatch (addSegments emptyNode [seg] b) [seg] 0 d = b ∧
    findMatch (addSegments emptyNode [seg] b) [u] 0 d = d := by
  obtain ⟨ch, dy, ca, pr⟩ := t
  have hins : ∀ n : RouteNode, (addSegments n [] b).isProtected = some b := by
    intro n
    obtain ⟨c2, d2, a2, p2⟩ := n
    simp [addSegments, RouteNode.isProtected]
  have hstep : addSegments emptyNode [seg] b =
      RouteNode.mk [(seg, RouteNode.mk [] none none (some b))] none none none := by
    simp [addSegments, emptyNode, h1, h2, mapGet?, mapSet]
  refine ⟨?_, ?_, ?_, ?_, ?_⟩
  · cases hg : mapGet? ch seg with
    | some n =>
      simp [addSegments, h1, h2, hg, RouteNode.children, mapGet?_set_self]
      exact hins n
    | none =>
      simp [addSegments, h1, h2, hg, RouteNode.children, mapGet?_set_self, hins,
        RouteNode.isProtected]
  · cases hg : mapGet? ch seg <;>
      simp [addSegments, h1, h2, hg, RouteNode.dynamicChild]
  · cases hg : mapGet? ch seg <;>
      simp [addSegments, h1, h2, hg, RouteNode.catchAllChild]
  · rw [hstep]
    rw [findMatch_lit (RouteNode.mk [(seg, RouteNode.mk [] none none (some b))]
        none none none) (RouteNode.mk [] none none (some b)) [seg] 0 d (by simp)
      (by simp [RouteNode.children, mapGet?])]
    rw [findMatch_end _ _ _ _ (by simp)]
    simp [endOfPath, RouteNode.isProtected]
  · rw [hstep]
    refine findMatch_noBranch _ _ _ _ (by simp) ?_ rfl rfl
    simp [RouteNode.children, mapGet?]
    exact fun hh => hu hh.symm

theorem malformedSegLiteral_witness :
    isCatchAllSeg ['[', 'f', 'o', 'o'] = false ∧
      ((mapGet? (addSegments emptyNode [['[', 'f', 'o', 'o']] true).children
          ['[', 'f', 'o', 'o']).bind RouteNode.isProtected = some true ∧
        (addSegments emptyNode [['[', 'f', 'o', 'o']] true).dynamicChild =
          emptyNode.dynamicChild ∧
        (addSegments emptyNode [['[', 'f', 'o', 'o']] true).catchAllChild =
          emptyNode.catchAllChild ∧
        findMatch (addSegments emptyNode [['[', 'f', 'o', 'o']] true)
          [['[', 'f', 'o', 'o']] 0 false = true ∧
        findMatch (addSegments emptyNode [['[', 'f', 'o', 'o']] true) [['z']] 0 false =
          false) :=
  ⟨by decide, malformedSegLiteral emptyNode ['[', 'f', 'o', 'o'] ['z'] true false
    (by decide) (by decide) (by decide)⟩

/-- C7 (counterexample): for the non-root path `p = "//"` (with an optional
public catch-all at the root and default `true`), `match(p)` normalizes to
the root path and returns `true`, while `match(p ++ "/")` strips only one
slash, keeps a non-root empty-segment path, and returns `false`. -/
theorem trailingSlash_cex :
    matchPath "//" (buildRouteTrie (RouteMap.mk [] ["/[[...x]]"])) true = true ∧
    matchPath ("//" ++ "/") (buildRouteTrie (RouteMap.mk [] ["/[[...x]]"])) true = false := by
  constructor <;> decide

/-- C7 (amended): `match(p)` equals `match(p ++ "?x=1#y")` and equals
`match(p ++ "/")` for every path `p` whose query/fragment-stripped part
is neither empty nor `//` (the query/fragment identity in fact needs no
such restriction). -/
theorem normalizationInvariance (t : RouteNode) (d : Bool) (p : String)
    (h1 : rawPath p.data ≠ [])
    (h2 : rawPath p.data ≠ ['/', '/']) :
    matchPath (p ++ "?x=1#y") t d = matchPath p t d ∧
    matchPath (p ++ "/") t d = matchPath p t d := by
  constructor
  · simp only [matchPath]
    rw [String.data_append,
      show ("?x=1#y" : String).data = '?' :: ['x', '=', '1', '#', 'y'] from rfl,
      rawPath_append_q]
  · simp only [matchPath]
    rw [String.data_append, show ("/" : String).data = ['/'] from rfl]
    rcases rawPath_append_slash p.data with hcase | hcase
    · rw [hcase]
    · rw [hcase, stripSlash_concat _ h1]
      by_cases hsl : (rawPath p.data).getLast? = some '/' ∧ 1 < (rawPath p.data).length
      · obtain ⟨hlast, hlen⟩ := hsl
        have hdecomp := List.dropLast_append_getLast h1
        have hglast : (rawPath p.data).getLast h1 = '/' := by
          have hx := List.getLast?_eq_getLast (rawPath p.data) h1
          rw [hx] at hlast
          exact Option.some.inj hlast
        simp only [stripSlash]
        rw [if_pos (And.intro hlast hlen)]
        conv_lhs => rw [← hdecomp]
        rw [hglast]
        apply matchClean_concat_slash
        · intro hh
          have h0 : (rawPath p.data).dropLast.length = 0 := by rw [hh]; rfl
          rw [List.length_dropLast] at h0
          omega
        · intro hh
          apply h2
          rw [← hdecomp, hh, hglast]
          rfl
      · simp only [stripSlash]
        rw [if_neg hsl]

theorem normalizationInvariance_witness :
    rawPath ("/a" : String).data ≠ [] ∧
      (matchPath ("/a" ++ "?x=1#y") emptyNode true = matchPath "/a" emptyNode true ∧
        matchPath ("/a" ++ "/") emptyNode true = matchPath "/a" emptyNode true) :=
  ⟨by decide, normalizationInvariance emptyNode true "/a" (by decide) (by decide)⟩

/-- C8 (confirmed): the fueled matcher completes with a defined boolean on
every input once the fuel reaches `2 * (remaining depth) + 2`, and the
total matcher `findMatch` returns exactly that boolean: matching always
terminates, never fails, and its recursion depth is bounded linearly in the
path depth. -/
theorem matcherTerminates (node : RouteNode) (segments : List Seg) (index : Nat) (d : Bool) :
    ∃ b : Bool, findMatchF (2 * (segments.length - index) + 2) node segments index d =
        some b ∧
      findMatch node segments index d = b :=
  ⟨findMatch node segments index d, findMatch_eq_some node segments index d, rfl⟩

/-- C9 (confirmed): the split-point search starts at the current index, so a
required catch-all may consume zero segments: if the current segment itself
is a rest-segment key, the matcher descends there directly; in particular
with `/docs/[...slug]/edit` protected, `/docs/edit` is protected. -/
theorem catchAllZeroSegments (node can n : RouteNode) (o : Bool) (segments : List Seg)
    (index : Nat) (d : Bool)
    (hidx : index < segments.length)
    (hc : mapGet? node.children (segments.getD index []) = none)
    (hd : node.dynamicChild = none)
    (hca : node.catchAllChild = some (can, o))
    (hkey : mapGet? can.children (segments.getD index []) = some n) :
    findMatch node segments index d = findMatch n segments (index + 1) d ∧
    matchPath "/docs/edit" (buildRouteTrie (RouteMap.mk ["/docs/[...slug]/edit"] []))
      false = true := by
  constructor
  · have hch : can.children.length ≠ 0 := by
      intro h0
      rw [List.length_eq_zero.mp h0] at hkey
      simp [mapGet?] at hkey
    have hget : segments[index] = segments.getD index [] := by
      rw [List.getD_eq_getElem?_getD, List.getElem?_eq_getElem hidx]
      rfl
    have hfs : firstSplit can segments index = some (n, index + 1) := by
      simp only [firstSplit]
      rw [List.drop_eq_getElem_cons hidx]
      simp only [firstSplitAux]
      rw [hget, hkey]
    rw [findMatch_catchAll node can o segments index d hidx hc hd hca hch, hfs]
  · decide

theorem catchAllZeroSegments_witness :
    (0 : Nat) < ([['e']] : List Seg).length ∧
      (findMatch (RouteNode.mk [] none (some (RouteNode.mk
          [(['e'], RouteNode.mk [] none none (some true))] none none none, false)) none)
          [['e']] 0 false =
        findMatch (RouteNode.mk [] none none (some true)) [['e']] 1 false ∧
        matchPath "/docs/edit" (buildRouteTrie (RouteMap.mk ["/docs/[...slug]/edit"] []))
          false = true) :=
  ⟨by decide, catchAllZeroSegments _ _ _ false [['e']] 0 false (by decide) rfl rfl rfl rfl⟩

/-- C10 (confirmed): the optionality flag recorded for a catch-all child at
any trie position survives every later pattern insertion (the existing
child node is reused and only classifications are updated), so it is always
the optionality of the first-inserted catch-all at that position. -/
theorem catchAllOptionalityStable (t : RouteNode) (segs2 ps : List Seg) (b o : Bool)
    (h : caOptAt t ps = some o) :
    caOptAt (addSegments t segs2 b) ps = some o :=
  (addSegments_preserve segs2 t b ps).2 o h

theorem catchAllOptionalityStable_witness :
    caOptAt (addRouteToTrie emptyNode "/a/[...x]" true) [['a']] = some false ∧
      caOptAt (addSegments (addRouteToTrie emptyNode "/a/[...x]" true)
        (splitSlash ("/a/[[...x]]" : String).data) false) [['a']] = some false :=
  ⟨by decide, catchAllOptionalityStable (addRouteToTrie emptyNode "/a/[...x]" true)
    (splitSlash ("/a/[[...x]]" : String).data) [['a']] false false (by decide)⟩

end NextRouteGuard
